import Mathlib

/-!
# neighbor: the clone-and-execute pipeline

A shallow embedding of `pkg/github/clone.go` and `pkg/external/run.go`.

* Sequential code (`getCloneURL`, the body of `cloneRepo` up to its final
  `select`, `run`) is embedded as functions.  Calls into the operating system
  and into go-git take their result from an explicit outcome argument, the
  lookup of a program on `PATH` from an explicit environment, and the working
  directory of the process is resolved as the operating system does it.
* `external.Run` is one goroutine reading one channel and writing one channel;
  it is embedded as a function from the history of its input channel to the
  history of its output channel.
* `github.CloneFromResult` launches one goroutine per descriptor plus a closing
  goroutine; it is embedded as a transition system whose steps are the atomic
  actions of those goroutines, scheduled in any order.
-/

namespace Neighbor

/-! ## Data model -/

/-- ExternalProject of `clone.go`: a project name and where it was cloned to. -/
structure ExternalProject where
  Name : String
  Directory : String
deriving DecidableEq

/-- The three fields of go-github `Repository` that the code reads.  They are
`*string` in Go, so each may be nil. -/
structure Repository where
  Name : Option String
  CloneURL : Option String
  HTMLURL : Option String
deriving DecidableEq

/-- Accessor `GetCloneURL` of go-github: the empty string for a nil field. -/
def Repository.GetCloneURL (r : Repository) : String :=
  match r.CloneURL with
  | none => ""
  | some u => u

/-- Accessor `GetHTMLURL` of go-github: the empty string for a nil field. -/
def Repository.GetHTMLURL (r : Repository) : String :=
  match r.HTMLURL with
  | none => ""
  | some u => u

/-- One entry of go-github `CodeSearchResult.CodeResults`; its `Repository`
field is a pointer. -/
structure CodeResult where
  Repository : Option Repository
deriving DecidableEq

/-- The dynamic type of the argument `d interface{}` of `CloneFromResult`: the
two cases of its type switch, and everything else. -/
inductive SearchResult where
  | repositories (Repositories : List Repository)
  | code (CodeResults : List CodeResult)
  | other
deriving DecidableEq

/-- BasicAuth of go-git `plumbing/transport/http`. -/
structure BasicAuth where
  Username : String
  Password : String
deriving DecidableEq

/-- The writers the code hands to its collaborators. -/
inductive Stream where
  | stdout
  | stderr
deriving DecidableEq

/-- The fields of go-git `CloneOptions` that `cloneRepo` sets. -/
structure CloneOptions where
  URL : String
  Auth : Option BasicAuth
  Progress : Stream
deriving DecidableEq

/-- The arguments of one call `git.PlainClone(path, isBare, o)`. -/
structure CloneCall where
  path : String
  isBare : Bool
  o : CloneOptions
deriving DecidableEq

/-- Modelled from the spec: the `GitHub` member of `neighbor.Ctx` (package
`pkg/neighbor`), of which the code reads the access credential. -/
structure GitHubDetails where
  AccessToken : String
deriving DecidableEq

/-- Modelled from the spec: the cancellation signal of the run context, as the
state of its `Done()` channel when the pipeline starts. -/
structure CancelContext where
  done : Bool
deriving DecidableEq

/-- Modelled from the spec: `neighbor.Ctx` (package `pkg/neighbor`), the shared
run context: the cancellation signal, the access credential, the external
command as a sequence of tokens, and the base directory for clones.  The field
names are those the code under `pkg/github` and `pkg/external` reads. -/
structure Ctx where
  Context : CancelContext
  GitHub : GitHubDetails
  ExternalCmd : List String
  ExtResultDir : String
deriving DecidableEq

/-! ## `pkg/github/clone.go`: sequential part -/

/-- Function `getCloneURL` of `clone.go`. -/
def getCloneURL (repo : Repository) : String :=
  let url := repo.GetCloneURL
  if url = "" then repo.GetHTMLURL ++ ".git" else url

/-- How far one call of `cloneRepo` gets before it either returns or reaches
its final `select`. -/
inductive CloneResult where
  /-- nil pointer dereference at `*repo.Name` -/
  | panicked
  /-- after `git.PlainClone` returned an error: logged, `cloneRepo` returns -/
  | failed (call : CloneCall)
  /-- after `git.PlainClone` succeeded: `project` is what the final `select` may send -/
  | cloned (call : CloneCall) (project : ExternalProject)
deriving DecidableEq

/-- The call to `git.PlainClone` that was made, if any. -/
def CloneResult.call? : CloneResult → Option CloneCall
  | .panicked => none
  | .failed c => some c
  | .cloned c _ => some c

/-- The project that is ready to be published, if any. -/
def CloneResult.project? : CloneResult → Option ExternalProject
  | .cloned _ p => some p
  | _ => none

/-- Function `cloneRepo` of `clone.go`, from its entry to the return of
`git.PlainClone`; `cloneOk` is whether that call returns a nil error.  Go's
`len(s) > 0` on a string counts bytes. -/
def cloneRepo (ctx : Ctx) (repo : Repository) (cloneOk : Bool) : CloneResult :=
  match repo.Name with
  | none => .panicked
  | some name =>
    let dir := ctx.ExtResultDir ++ "/" ++ name
    let opts : CloneOptions :=
      { URL := getCloneURL repo, Auth := none, Progress := Stream.stderr }
    let opts : CloneOptions :=
      if ctx.GitHub.AccessToken.utf8ByteSize > 0 then
        { opts with Auth := some { Username := "abc123", Password := ctx.GitHub.AccessToken } }
      else opts
    let call : CloneCall := { path := dir, isBare := false, o := opts }
    if cloneOk then .cloned call { Name := name, Directory := dir }
    else .failed call

/-! ## `pkg/external/run.go`: sequential part -/

/-- The fields of `exec.Cmd` that `exec.Command` and `run` set. `Args` holds
the program name followed by the arguments, as in Go. -/
structure Cmd where
  Path : String
  Args : List String
  Stdout : Option Stream
  Stderr : Option Stream
deriving DecidableEq

/-- The part of the environment that `exec.Command` consults.  For a name
`commandPath name` is what `exec.Command` stores in `Cmd.Path`: the file that
`exec.LookPath` finds on `PATH` for a name without a directory part, and the
name itself otherwise. -/
structure Env where
  commandPath : String → String

/-- Library function `exec.Command(name, arg...)`: `Path` comes from the
lookup, `Args` is the name as given followed by the arguments. -/
def execCommand (env : Env) (name : String) (arg : List String) : Cmd :=
  { Path := env.commandPath name, Args := name :: arg, Stdout := none, Stderr := none }

/-- The command construction of `run`: both branches of its `if`, then the two
stream assignments.  The result is `none` when the index `ExternalCmd[0]` is
out of range, where Go panics. -/
def buildCmd (env : Env) (externalCmd : List String) : Option Cmd :=
  let cmd : Option Cmd :=
    if externalCmd.length = 1 then
      (externalCmd.get? 0).map fun c0 => execCommand env c0 []
    else
      (externalCmd.get? 0).map fun c0 => execCommand env c0 (externalCmd.drop 1)
  cmd.map fun c => { c with Stdout := some Stream.stdout, Stderr := some Stream.stderr }

/-- Whether a path is absolute on Unix: it begins with a slash. -/
def isAbs (path : String) : Bool :=
  match path.data with
  | c :: _ => c == '/'
  | [] => false

/-- The working directory of the process, as the operating system resolves
it: the absolute path last changed into (at the start, the directory the
process was started in), followed by the relative paths changed into since
then, in order.  It stands for the directory reached from `base` by following
`steps` one after the other. -/
structure WorkDir where
  base : String
  steps : List String
deriving DecidableEq

/-- The working directory after a successful `os.Chdir(dir)`: an absolute
path replaces it, a relative path is resolved against it. -/
def WorkDir.chdir (d : WorkDir) (dir : String) : WorkDir :=
  if isAbs dir then { base := dir, steps := [] }
  else { d with steps := d.steps ++ [dir] }

/-- What the operating system does while `run` processes one project: the
`os.Chdir` fails, or it succeeds and `cmd.Run()` then fails to start the
command, returns a non-zero exit status, or returns nil.  The string is the
text of the underlying error. -/
inductive WorkOutcome where
  | chdirFailure (err : String)
  | spawnFailure (err : String)
  | nonZeroExit (err : String)
  | success
deriving DecidableEq

/-- Whether `os.Chdir` returned a nil error. -/
def WorkOutcome.chdirOk : WorkOutcome → Bool
  | .chdirFailure _ => false
  | _ => true

/-- One executed call `cmd.Run()`: the project `run` was called for, the
working directory of the process at that moment, and the command. -/
structure Invocation where
  project : ExternalProject
  dir : WorkDir
  cmd : Cmd
deriving DecidableEq

/-- The part of the process environment that `run` changes. -/
structure World where
  cwd : WorkDir
  invocations : List Invocation
deriving DecidableEq

/-- What a call of `run` comes back with. -/
inductive RunReturn where
  | ok
  | error (msg : String)
  | panicked
deriving DecidableEq

/-- Library function `errors.Wrap(err, message)`, as the text of the result. -/
def errorsWrap (err : String) (message : String) : String :=
  message ++ ": " ++ err

/-- Function `run` of `run.go`.  A failed `os.Chdir` leaves the working
directory as it was and makes `run` return before the command is built; a
successful one changes the working directory of the whole process. -/
def run (env : Env) (ctx : Ctx) (p : ExternalProject) (o : WorkOutcome) (w : World) :
    World × RunReturn :=
  match o with
  | .chdirFailure err =>
    (w, .error (errorsWrap err "error changing into project working directory"))
  | o =>
    let w : World := { w with cwd := w.cwd.chdir p.Directory }
    match buildCmd env ctx.ExternalCmd with
    | none => (w, .panicked)
    | some cmd =>
      let w : World :=
        { w with invocations := w.invocations ++ [{ project := p, dir := w.cwd, cmd := cmd }] }
      match o with
      | .spawnFailure err =>
        (w, .error (errorsWrap err "failed to run external command with error"))
      | .nonZeroExit err =>
        (w, .error (errorsWrap err "failed to run external command with error"))
      | _ => (w, .ok)

/-! ## `pkg/external/run.go`: the Execution Stage -/

/-- One operation completed on a channel. -/
inductive ChanEvent where
  | send (p : ExternalProject)
  | close
deriving DecidableEq

/-- The observable state of the goroutine started by `Run`: the environment,
the history of the channel `out` (every send is taken by a receiver), what was
passed to `glog.Error`, and whether the process died of a panic. -/
structure Stage where
  world : World
  out : List ChanEvent
  logged : List String
  crashed : Bool
deriving DecidableEq

/-- The `for`/`select` loop of `Run`.  The list is the history of the channel
`in` up to its close, each project paired with what the operating system does
while it is processed; the empty list is the receive with `ok == false`. -/
def Run.loop (env : Env) (ctx : Ctx) :
    List (ExternalProject × WorkOutcome) → Stage → Stage
  | [], s => { s with out := s.out ++ [ChanEvent.close] }
  | (project, o) :: rest, s =>
    match run env ctx project o s.world with
    | (w, .panicked) => { s with world := w, crashed := true }
    | (w, .error msg) =>
      Run.loop env ctx rest
        { s with world := w, logged := s.logged ++ [msg], out := s.out ++ [ChanEvent.send project] }
    | (w, .ok) =>
      Run.loop env ctx rest { s with world := w, out := s.out ++ [ChanEvent.send project] }

/-- Function `Run` of `run.go`, started in the environment `w`. -/
def Run (env : Env) (ctx : Ctx) (input : List (ExternalProject × WorkOutcome)) (w : World) :
    Stage :=
  Run.loop env ctx input { world := w, out := [], logged := [], crashed := false }

/-! ## `pkg/github/clone.go`: the Clone Stage -/

/-- Where one clone goroutine stands. -/
inductive Pc where
  /-- launched, before its first `select` -/
  | start
  /-- inside `cloneRepo`, clone succeeded, before the final `select` -/
  | cloned (p : ExternalProject)
  /-- in the `default` branch of the final `select`, blocked in `ch <- p` -/
  | sending (p : ExternalProject)
  /-- about to call `wg.Done()` -/
  | exiting
  /-- after `wg.Done()`: the goroutine has finished -/
  | done
deriving DecidableEq

/-- One clone goroutine: its descriptor, whether its `git.PlainClone` returns a
nil error, and where it stands. -/
structure CloneUnit where
  repo : Repository
  cloneOk : Bool
  pc : Pc
deriving DecidableEq

/-- The state shared by the goroutines of `CloneFromResult`: the cancellation
signal, the clone goroutines, the counter of the `sync.WaitGroup`, whether
`ch` is closed, the projects received from `ch` so far in order of arrival,
the calls of `git.PlainClone` made so far, and whether the process died of a
panic. -/
structure CloneState where
  cancelled : Bool
  units : List CloneUnit
  wg : Nat
  closed : Bool
  delivered : List ExternalProject
  attempts : List CloneCall
  crashed : Bool
deriving DecidableEq

/-- The atomic actions: clone goroutine `i` moves, the closing goroutine
closes `ch`, or the environment signals cancellation. -/
inductive Action where
  | unit (i : Nat)
  | closer
  | cancel
deriving DecidableEq

/-- Move goroutine `i`, which is `u`, to `pc`. -/
def CloneState.setPc (s : CloneState) (i : Nat) (u : CloneUnit) (pc : Pc) : CloneState :=
  { s with units := s.units.set i { u with pc := pc } }

/-- The next atomic action of clone goroutine `i`, which is `u`.
* `start`: the first `select`; when `Done()` is closed the goroutine goes to
  its `wg.Done()`, otherwise it enters `cloneRepo` and runs it to the return
  of `git.PlainClone`.
* `cloned`: the final `select` of `cloneRepo`.
* `sending`: the send `ch <- p` is taken by the receiver (a send on a closed
  channel panics).
* `exiting`: `wg.Done()` (a negative counter panics). -/
def stepUnit (ctx : Ctx) (s : CloneState) (i : Nat) (u : CloneUnit) : Option CloneState :=
  match u.pc with
  | .start =>
    if s.cancelled then some (s.setPc i u .exiting)
    else
      match cloneRepo ctx u.repo u.cloneOk with
      | .panicked => some { s with crashed := true }
      | .failed call =>
        some { s.setPc i u .exiting with attempts := s.attempts ++ [call] }
      | .cloned call p =>
        some { s.setPc i u (.cloned p) with attempts := s.attempts ++ [call] }
  | .cloned p =>
    if s.cancelled then some (s.setPc i u .exiting)
    else some (s.setPc i u (.sending p))
  | .sending p =>
    if s.closed then some { s with crashed := true }
    else some { s.setPc i u .exiting with delivered := s.delivered ++ [p] }
  | .exiting =>
    if s.wg = 0 then some { s with crashed := true }
    else some { s.setPc i u .done with wg := s.wg - 1 }
  | .done => none

/-- One atomic action of the Clone Stage; `none` when the action is not
enabled.  The closing goroutine returns from `wg.Wait()` when the counter is
zero and closes `ch` once; nothing moves after a panic. -/
def step (ctx : Ctx) (s : CloneState) (a : Action) : Option CloneState :=
  if s.crashed then none
  else
    match a with
    | .unit i =>
      match s.units[i]? with
      | none => none
      | some u => stepUnit ctx s i u
    | .closer =>
      if s.wg = 0 ∧ s.closed = false then some { s with closed := true } else none
    | .cancel =>
      if s.cancelled then none else some { s with cancelled := true }

/-- Run a schedule, a finite sequence of atomic actions; `none` when one of
them is not enabled when its turn comes. -/
def exec (ctx : Ctx) : CloneState → List Action → Option CloneState
  | s, [] => some s
  | s, a :: rest =>
    match step ctx s a with
    | none => none
    | some s1 => exec ctx s1 rest

/-- The descriptors the loops of `CloneFromResult` range over; `none` when the
dereference `*r.Repository` hits a nil pointer. -/
def descriptors : SearchResult → Option (List Repository)
  | .repositories rs => some rs
  | .code cs => cs.mapM fun r => r.Repository
  | .other => some []

/-- The goroutines launched for the descriptors, the `k`-th taking its clone
outcome from `git k`. -/
def launch (git : Nat → Bool) : Nat → List Repository → List CloneUnit
  | _, [] => []
  | k, r :: rs => { repo := r, cloneOk := git k, pc := Pc.start } :: launch git (k + 1) rs

/-- The state in which `CloneFromResult` returns for the descriptors `rs`:
`wg.Add(len(rs))` done, one goroutine launched per descriptor, the channel
open and empty. -/
def initial (ctx : Ctx) (git : Nat → Bool) (rs : List Repository) : CloneState :=
  { cancelled := ctx.Context.done, units := launch git 0 rs, wg := rs.length,
    closed := false, delivered := [], attempts := [], crashed := false }

/-- Function `CloneFromResult` of `clone.go`: the state when it returns;
`git i` is whether the `git.PlainClone` of descriptor `i` returns a nil
error. -/
def CloneFromResult (ctx : Ctx) (git : Nat → Bool) (d : SearchResult) : Option CloneState :=
  (descriptors d).map (initial ctx git)

/-- Whether every clone goroutine has finished. -/
def CloneState.allDone (s : CloneState) : Prop :=
  ∀ u ∈ s.units, u.pc = Pc.done

/-- A schedule in which the environment never signals cancellation. -/
def noCancel (sched : List Action) : Prop :=
  Action.cancel ∉ sched

instance (sched : List Action) : Decidable (noCancel sched) :=
  inferInstanceAs (Decidable (Action.cancel ∉ sched))

/-! ## Quantities used in the proofs -/

/-- The number of atomic actions a clone goroutine has left at most. -/
def Pc.rank : Pc → Nat
  | .start => 4
  | .cloned _ => 3
  | .sending _ => 2
  | .exiting => 1
  | .done => 0

/-- An upper bound on the number of actions still to come. -/
def CloneState.measure (s : CloneState) : Nat :=
  (s.units.map fun u => u.pc.rank).sum + (if s.closed then 0 else 1) +
    (if s.cancelled then 0 else 1) + (if s.crashed then 0 else 1)

/-- The number of clone goroutines that have not called `wg.Done()` yet. -/
def CloneState.running (s : CloneState) : Nat :=
  s.units.countP fun u => u.pc != Pc.done

/-- The projects the clone goroutines will still hand over when nothing
cancels them. -/
def pending (outstanding : CloneUnit → List ExternalProject) :
    List CloneUnit → List ExternalProject
  | [] => []
  | u :: us => outstanding u ++ pending outstanding us

/-- The project a clone goroutine will still hand over when nothing cancels
it: the one its successful clone yields, until it has been received. -/
def outstanding (ctx : Ctx) (u : CloneUnit) : List ExternalProject :=
  match u.pc with
  | .start => if u.cloneOk then (cloneRepo ctx u.repo true).project?.toList else []
  | .cloned p => [p]
  | .sending p => [p]
  | .exiting => []
  | .done => []

/-! ## Invariants -/

/-- The counter equals the number of goroutines that have not finished, and
the channel is closed only when it is zero. -/
def WgInv (s : CloneState) : Prop :=
  s.wg = s.running ∧ (s.closed = true → s.wg = 0)

/-- The invariant of a run in which nothing is cancelled and every descriptor
has a name: no panic, and the projects received so far together with those
still to come are the fixed collection `E`. -/
def NcInv (ctx : Ctx) (E : List ExternalProject) (s : CloneState) : Prop :=
  s.cancelled = false ∧ s.crashed = false ∧ (∀ u ∈ s.units, u.repo.Name ≠ none) ∧
    List.Perm (s.delivered ++ pending (outstanding ctx) s.units) E

/-- The invariant of a run whose cancellation signal is set from the start:
no clone is attempted, nothing is received, nothing panics, and no goroutine
is ever inside `cloneRepo`. -/
def CancelledInv (s : CloneState) : Prop :=
  s.cancelled = true ∧ s.crashed = false ∧ s.delivered = [] ∧ s.attempts = [] ∧
    ∀ u ∈ s.units, u.pc = Pc.start ∨ u.pc = Pc.exiting ∨ u.pc = Pc.done

/-! ## Concrete inputs -/

def exCtx : Ctx :=
  { Context := { done := false }, GitHub := { AccessToken := "tok" },
    ExternalCmd := ["echo", "ok"], ExtResultDir := "base" }

def exRepoA : Repository := { Name := some "a", CloneURL := some "u1", HTMLURL := none }

def exRepoB : Repository := { Name := some "b", CloneURL := none, HTMLURL := some "h2" }

def exProjA : ExternalProject := { Name := "a", Directory := "base/a" }

def exProjB : ExternalProject := { Name := "b", Directory := "base/b" }

/-- The lookup of a host on which `echo` is `/bin/echo` and `ls` is
`/usr/bin/ls`. -/
def exEnv : Env :=
  { commandPath := fun name =>
      if name = "echo" then "/bin/echo" else if name = "ls" then "/usr/bin/ls" else name }

def exCtxLs : Ctx := { exCtx with ExternalCmd := ["ls"] }

def exWorld : World := { cwd := { base := "/", steps := [] }, invocations := [] }

/-- Two projects cloned under an absolute base directory. -/
def exAbsA : ExternalProject := { Name := "a", Directory := "/srv/neighbor/a" }

def exAbsB : ExternalProject := { Name := "b", Directory := "/srv/neighbor/b" }

def exWork : List (ExternalProject × WorkOutcome) :=
  [(exAbsA, WorkOutcome.success), (exAbsB, WorkOutcome.chdirFailure "no such file or directory"),
   (exAbsA, WorkOutcome.nonZeroExit "exit status 1"),
   (exAbsB, WorkOutcome.spawnFailure "executable file not found")]

def exRepoA2 : Repository := { Name := some "a", CloneURL := some "u3", HTMLURL := none }

def exCtxCancelled : Ctx := { exCtx with Context := { done := true } }

/-- Both goroutines run to their end, then the channel is closed. -/
def exSchedule : List Action :=
  [Action.unit 0, Action.unit 1, Action.unit 0, Action.unit 0, Action.unit 1, Action.unit 1,
   Action.unit 1, Action.unit 0, Action.closer]

/-- The first goroutine clones and sends, the second returns after its failed
clone, then the channel is closed. -/
def exScheduleOneFails : List Action :=
  [Action.unit 1, Action.unit 0, Action.unit 0, Action.unit 1, Action.unit 0, Action.unit 0,
   Action.closer]

/-- Both goroutines see the cancellation and finish, then the channel is
closed. -/
def exScheduleCancelled : List Action :=
  [Action.unit 0, Action.unit 1, Action.unit 1, Action.unit 0, Action.closer]

/-! # Theorems -/

/-! ## Lists with one element replaced -/

theorem set_split {α : Type} (l : List α) (i : Nat) (u v : α) (h : l[i]? = some u) :
    ∃ l1 l2, l = l1 ++ u :: l2 ∧ l.set i v = l1 ++ v :: l2 := by
  induction l generalizing i with
  | nil => simp at h
  | cons x xs ih =>
    cases i with
    | zero =>
      simp at h
      exact ⟨[], xs, by simp [h], by simp⟩
    | succ j =>
      simp at h
      obtain ⟨l1, l2, h1, h2⟩ := ih j (by simpa using h)
      exact ⟨x :: l1, l2, by simp [h1], by simp [h2]⟩

/-! ## One action of the Clone Stage, case by case -/

/-- The relational reading of one enabled action. -/
theorem step_cases (ctx : Ctx) (s s1 : CloneState) (a : Action) (h : step ctx s a = some s1) :
    s.crashed = false ∧
    ((∃ u ∈ s.units,
        ((u.pc = Pc.start ∧ s.cancelled = false ∧
            cloneRepo ctx u.repo u.cloneOk = CloneResult.panicked) ∨
         (∃ p, u.pc = Pc.sending p ∧ s.closed = true) ∨
         (u.pc = Pc.exiting ∧ s.wg = 0)) ∧
        s1 = { s with crashed := true }) ∨
     (s.wg = 0 ∧ s.closed = false ∧ s1 = { s with closed := true }) ∨
     (a = Action.cancel ∧ s.cancelled = false ∧ s1 = { s with cancelled := true }) ∨
     (∃ l1 u l2 pc, s.units = l1 ++ u :: l2 ∧
        ((u.pc = Pc.start ∧ s.cancelled = true ∧ pc = Pc.exiting ∧
            s1 = { s with units := l1 ++ { u with pc := pc } :: l2 }) ∨
         (∃ call, u.pc = Pc.start ∧ s.cancelled = false ∧ pc = Pc.exiting ∧
            cloneRepo ctx u.repo u.cloneOk = CloneResult.failed call ∧
            s1 = { s with units := l1 ++ { u with pc := pc } :: l2,
                          attempts := s.attempts ++ [call] }) ∨
         (∃ call p, u.pc = Pc.start ∧ s.cancelled = false ∧ pc = Pc.cloned p ∧
            cloneRepo ctx u.repo u.cloneOk = CloneResult.cloned call p ∧
            s1 = { s with units := l1 ++ { u with pc := pc } :: l2,
                          attempts := s.attempts ++ [call] }) ∨
         (∃ p, u.pc = Pc.cloned p ∧ s.cancelled = true ∧ pc = Pc.exiting ∧
            s1 = { s with units := l1 ++ { u with pc := pc } :: l2 }) ∨
         (∃ p, u.pc = Pc.cloned p ∧ s.cancelled = false ∧ pc = Pc.sending p ∧
            s1 = { s with units := l1 ++ { u with pc := pc } :: l2 }) ∨
         (∃ p, u.pc = Pc.sending p ∧ s.closed = false ∧ pc = Pc.exiting ∧
            s1 = { s with units := l1 ++ { u with pc := pc } :: l2,
                          delivered := s.delivered ++ [p] }) ∨
         (u.pc = Pc.exiting ∧ 0 < s.wg ∧ pc = Pc.done ∧
            s1 = { s with units := l1 ++ { u with pc := pc } :: l2,
                          wg := s.wg - 1 })))) := by
  obtain ⟨cancelled, units, wg, closed, delivered, attempts, crashed⟩ := s
  cases crashed with
  | true => simp [step] at h
  | false =>
    refine ⟨rfl, ?_⟩
    cases a with
    | closer =>
      simp [step] at h
      obtain ⟨⟨h1, h2⟩, rfl⟩ := h
      right; left
      simp [h1, h2]
    | cancel =>
      simp [step] at h
      obtain ⟨h1, rfl⟩ := h
      right; right; left
      simp [h1]
    | unit i =>
      cases hu : units[i]? with
      | none => simp [step, hu] at h
      | some u =>
        obtain ⟨repo, ok, pc⟩ := u
        have hmem := List.getElem?_mem hu
        have hsplit := fun v => set_split units i { repo := repo, cloneOk := ok, pc := pc } v hu
        cases pc with
        | start =>
          cases cancelled with
          | true =>
            obtain ⟨l1, l2, h1, h2⟩ := hsplit { repo := repo, cloneOk := ok, pc := Pc.exiting }
            simp [step, stepUnit, CloneState.setPc, hu, h2] at h
            subst h
            right; right; right
            exact ⟨l1, _, l2, Pc.exiting, h1, Or.inl ⟨rfl, rfl, rfl, rfl⟩⟩
          | false =>
            cases hcl : cloneRepo ctx repo ok with
            | panicked =>
              simp [step, stepUnit, hu, hcl] at h
              subst h
              left
              exact ⟨_, hmem, Or.inl ⟨rfl, rfl, hcl⟩, rfl⟩
            | failed call =>
              obtain ⟨l1, l2, h1, h2⟩ := hsplit { repo := repo, cloneOk := ok, pc := Pc.exiting }
              simp [step, stepUnit, CloneState.setPc, hu, h2, hcl] at h
              subst h
              right; right; right
              exact ⟨l1, _, l2, Pc.exiting, h1, Or.inr (Or.inl ⟨call, rfl, rfl, rfl, hcl, rfl⟩)⟩
            | cloned call p =>
              obtain ⟨l1, l2, h1, h2⟩ := hsplit { repo := repo, cloneOk := ok, pc := Pc.cloned p }
              simp [step, stepUnit, CloneState.setPc, hu, h2, hcl] at h
              subst h
              right; right; right
              exact ⟨l1, _, l2, Pc.cloned p, h1,
                Or.inr (Or.inr (Or.inl ⟨call, p, rfl, rfl, rfl, hcl, rfl⟩))⟩
        | cloned p =>
          cases cancelled with
          | true =>
            obtain ⟨l1, l2, h1, h2⟩ := hsplit { repo := repo, cloneOk := ok, pc := Pc.exiting }
            simp [step, stepUnit, CloneState.setPc, hu, h2] at h
            subst h
            right; right; right
            exact ⟨l1, _, l2, Pc.exiting, h1,
              Or.inr (Or.inr (Or.inr (Or.inl ⟨p, rfl, rfl, rfl, rfl⟩)))⟩
          | false =>
            obtain ⟨l1, l2, h1, h2⟩ := hsplit { repo := repo, cloneOk := ok, pc := Pc.sending p }
            simp [step, stepUnit, CloneState.setPc, hu, h2] at h
            subst h
            right; right; right
            exact ⟨l1, _, l2, Pc.sending p, h1,
              Or.inr (Or.inr (Or.inr (Or.inr (Or.inl ⟨p, rfl, rfl, rfl, rfl⟩))))⟩
        | sending p =>
          cases closed with
          | true =>
            simp [step, stepUnit, hu] at h
            subst h
            left
            exact ⟨_, hmem, Or.inr (Or.inl ⟨p, rfl, rfl⟩), rfl⟩
          | false =>
            obtain ⟨l1, l2, h1, h2⟩ := hsplit { repo := repo, cloneOk := ok, pc := Pc.exiting }
            simp [step, stepUnit, CloneState.setPc, hu, h2] at h
            subst h
            right; right; right
            exact ⟨l1, _, l2, Pc.exiting, h1,
              Or.inr (Or.inr (Or.inr (Or.inr (Or.inr (Or.inl ⟨p, rfl, rfl, rfl, rfl⟩)))))⟩
        | exiting =>
          by_cases hwg : wg = 0
          · simp [step, stepUnit, hu, hwg] at h
            subst h
            left
            exact ⟨_, hmem, Or.inr (Or.inr ⟨rfl, hwg⟩), by simp [hwg]⟩
          · obtain ⟨l1, l2, h1, h2⟩ := hsplit { repo := repo, cloneOk := ok, pc := Pc.done }
            simp [step, stepUnit, CloneState.setPc, hu, h2, hwg] at h
            subst h
            right; right; right
            exact ⟨l1, _, l2, Pc.done, h1,
              Or.inr (Or.inr (Or.inr (Or.inr (Or.inr (Or.inr
                ⟨rfl, Nat.pos_of_ne_zero hwg, rfl, rfl⟩)))))⟩
        | done => simp [step, stepUnit, hu] at h

/-! ## Every action uses up the measure -/

theorem measure_step (ctx : Ctx) (s s1 : CloneState) (a : Action)
    (h : step ctx s a = some s1) : s1.measure < s.measure := by
  obtain ⟨hcr, hc⟩ := step_cases ctx s s1 a h
  rcases hc with ⟨u, _, _, rfl⟩ | ⟨_, hcl, rfl⟩ | ⟨_, hcan, rfl⟩ | ⟨l1, u, l2, pc, hu, hc⟩
  · simp [CloneState.measure, hcr]
  · simp [CloneState.measure, hcl]
  · simp [CloneState.measure, hcan]
  · rcases hc with ⟨hpc, _, rfl, rfl⟩ | ⟨_, hpc, _, rfl, _, rfl⟩ | ⟨_, _, hpc, _, rfl, _, rfl⟩ |
      ⟨_, hpc, _, rfl, rfl⟩ | ⟨_, hpc, _, rfl, rfl⟩ | ⟨_, hpc, _, rfl, rfl⟩ | ⟨hpc, _, rfl, rfl⟩ <;>
    · simp only [CloneState.measure, hu, List.map_append, List.map_cons, List.sum_append,
        List.sum_cons, hpc, Pc.rank]
      omega

theorem exec_length (ctx : Ctx) (sched : List Action) (s s1 : CloneState)
    (h : exec ctx s sched = some s1) : sched.length + s1.measure ≤ s.measure := by
  induction sched generalizing s with
  | nil =>
    simp [exec] at h
    subst h
    simp
  | cons a rest ih =>
    simp only [exec] at h
    cases hs : step ctx s a with
    | none => simp [hs] at h
    | some s2 =>
      simp only [hs] at h
      have h1 := measure_step ctx s s2 a hs
      have h2 := ih s2 h
      simp only [List.length_cons]
      omega

/-! ## The counter of the wait group -/

theorem wgInv_step (ctx : Ctx) (s s1 : CloneState) (a : Action)
    (h : step ctx s a = some s1) (hi : WgInv s) : WgInv s1 := by
  obtain ⟨hcr, hc⟩ := step_cases ctx s s1 a h
  obtain ⟨hw, hcz⟩ := hi
  rcases hc with ⟨u, _, _, rfl⟩ | ⟨hz, hcl, rfl⟩ | ⟨_, hcan, rfl⟩ | ⟨l1, u, l2, pc, hu, hc⟩
  · exact ⟨hw, hcz⟩
  · exact ⟨hw, fun _ => hz⟩
  · exact ⟨hw, hcz⟩
  · rcases hc with ⟨hpc, _, rfl, rfl⟩ | ⟨_, hpc, _, rfl, _, rfl⟩ | ⟨_, _, hpc, _, rfl, _, rfl⟩ |
      ⟨_, hpc, _, rfl, rfl⟩ | ⟨_, hpc, _, rfl, rfl⟩ | ⟨_, hpc, _, rfl, rfl⟩ | ⟨hpc, hpos, rfl, rfl⟩
    all_goals
      simp only [WgInv, CloneState.running, hu, List.countP_append, List.countP_cons, hpc] at hw hcz ⊢
      simp at hw hcz ⊢
    all_goals first
      | exact ⟨hw, hcz⟩
      | (constructor
         · omega
         · intro hc; have := hcz hc; omega)

theorem wgInv_exec (ctx : Ctx) (sched : List Action) (s s1 : CloneState)
    (h : exec ctx s sched = some s1) (hi : WgInv s) : WgInv s1 := by
  induction sched generalizing s with
  | nil =>
    simp [exec] at h
    subst h
    exact hi
  | cons a rest ih =>
    simp only [exec] at h
    cases hs : step ctx s a with
    | none => simp [hs] at h
    | some s2 =>
      simp only [hs] at h
      exact ih s2 h (wgInv_step ctx s s2 a hs hi)

/-! ## Progress -/

theorem stepUnit_isSome (ctx : Ctx) (s : CloneState) (i : Nat) (u : CloneUnit)
    (h : u.pc ≠ Pc.done) : ∃ s1, stepUnit ctx s i u = some s1 := by
  unfold stepUnit
  cases hpc : u.pc with
  | start =>
    simp only
    split
    · exact ⟨_, rfl⟩
    · split <;> exact ⟨_, rfl⟩
  | cloned p => simp only; split <;> exact ⟨_, rfl⟩
  | sending p => simp only; split <;> exact ⟨_, rfl⟩
  | exiting => simp only; split <;> exact ⟨_, rfl⟩
  | done => exact absurd hpc h

theorem running_eq_zero (s : CloneState) : s.running = 0 ↔ s.allDone := by
  simp [CloneState.running, CloneState.allDone]

/-- While the channel is open and the process alive, a goroutine can move. -/
theorem progress (ctx : Ctx) (s : CloneState) (hi : WgInv s) (hcr : s.crashed = false)
    (hcl : s.closed = false) : ∃ a s1, a ≠ Action.cancel ∧ step ctx s a = some s1 := by
  by_cases hd : s.allDone
  · refine ⟨Action.closer, { s with closed := true }, by simp, ?_⟩
    have hz : s.wg = 0 := by rw [hi.1]; exact (running_eq_zero s).2 hd
    simp [step, hcr, hz, hcl]
  · simp only [CloneState.allDone, not_forall] at hd
    obtain ⟨u, hu, hpc⟩ := hd
    obtain ⟨i, hi2⟩ := List.getElem?_of_mem hu
    obtain ⟨s1, hs1⟩ := stepUnit_isSome ctx s i u hpc
    exact ⟨Action.unit i, s1, by simp, by simp [step, hcr, hi2, hs1]⟩

/-! ## The initial state -/

theorem launch_running (git : Nat → Bool) (k : Nat) (rs : List Repository) :
    (launch git k rs).countP (fun u => u.pc != Pc.done) = rs.length := by
  induction rs generalizing k with
  | nil => simp [launch]
  | cons r rs ih => simp [launch, List.countP_cons, ih]

theorem launch_rank (git : Nat → Bool) (k : Nat) (rs : List Repository) :
    ((launch git k rs).map fun u => u.pc.rank).sum = 4 * rs.length := by
  induction rs generalizing k with
  | nil => simp [launch]
  | cons r rs ih =>
    simp only [launch, List.map_cons, List.sum_cons, List.length_cons]
    rw [ih]
    simp only [Pc.rank]
    omega

theorem launch_start (git : Nat → Bool) (k : Nat) (rs : List Repository) :
    ∀ u ∈ launch git k rs, u.pc = Pc.start ∧ u.repo ∈ rs := by
  induction rs generalizing k with
  | nil => simp [launch]
  | cons r rs ih =>
    intro u hu
    simp only [launch, List.mem_cons] at hu
    rcases hu with rfl | hu
    · simp
    · exact ⟨(ih (k + 1) u hu).1, List.mem_cons_of_mem _ (ih (k + 1) u hu).2⟩

theorem launch_length (git : Nat → Bool) (k : Nat) (rs : List Repository) :
    (launch git k rs).length = rs.length := by
  induction rs generalizing k with
  | nil => simp [launch]
  | cons r rs ih => simp [launch, ih]

theorem descriptors_code (rs : List Repository) :
    descriptors (SearchResult.code (rs.map fun r => { Repository := some r })) = some rs := by
  simp only [descriptors]
  induction rs with
  | nil => rfl
  | cons r rs ih =>
    simp only [List.map_cons, List.mapM_cons, ih]
    rfl

/-- What `CloneFromResult` returns for a list of descriptors, in either of the
two shapes its type switch accepts. -/
theorem cloneFromResult_eq (ctx : Ctx) (git : Nat → Bool) (rs : List Repository)
    (d : SearchResult)
    (hd : d = SearchResult.repositories rs ∨
      d = SearchResult.code (rs.map fun r => { Repository := some r })) :
    CloneFromResult ctx git d = some (initial ctx git rs) := by
  rcases hd with rfl | rfl
  · simp [CloneFromResult, descriptors]
  · simp [CloneFromResult, descriptors_code]

/-! ## What `cloneRepo` returns -/

theorem cloneRepo_failed (ctx : Ctx) (r : Repository) (ok : Bool) (call : CloneCall)
    (h : cloneRepo ctx r ok = CloneResult.failed call) : ok = false := by
  unfold cloneRepo at h
  cases hn : r.Name with
  | none => simp [hn] at h
  | some n => cases ok <;> simp [hn] at h ⊢

theorem cloneRepo_cloned (ctx : Ctx) (r : Repository) (ok : Bool) (call : CloneCall)
    (p : ExternalProject) (h : cloneRepo ctx r ok = CloneResult.cloned call p) :
    ok = true ∧ (cloneRepo ctx r true).project? = some p := by
  cases ok with
  | false =>
    unfold cloneRepo at h
    cases hn : r.Name <;> simp [hn] at h
  | true => simp [h, CloneResult.project?]

theorem cloneRepo_panicked (ctx : Ctx) (r : Repository) (ok : Bool)
    (h : cloneRepo ctx r ok = CloneResult.panicked) : r.Name = none := by
  unfold cloneRepo at h
  cases hn : r.Name with
  | none => rfl
  | some n => cases ok <;> simp [hn] at h

theorem cloneRepo_project (ctx : Ctx) (r : Repository) (n : String) (h : r.Name = some n) :
    (cloneRepo ctx r true).project? =
      some { Name := n, Directory := ctx.ExtResultDir ++ "/" ++ n } := by
  simp [cloneRepo, h, CloneResult.project?]

/-! ## Runs without cancellation -/

theorem pending_append (f : CloneUnit → List ExternalProject) (l1 l2 : List CloneUnit) :
    pending f (l1 ++ l2) = pending f l1 ++ pending f l2 := by
  induction l1 with
  | nil => simp [pending]
  | cons u us ih => simp [pending, ih]

theorem pending_allDone (ctx : Ctx) (units : List CloneUnit)
    (h : ∀ u ∈ units, u.pc = Pc.done) : pending (outstanding ctx) units = [] := by
  induction units with
  | nil => rfl
  | cons u us ih =>
    have hu : u.pc = Pc.done := h u (List.mem_cons_self _ _)
    simp only [pending, outstanding, hu, List.nil_append]
    exact ih fun v hv => h v (List.mem_cons_of_mem _ hv)

theorem ncInv_step (ctx : Ctx) (E : List ExternalProject) (s s1 : CloneState) (a : Action)
    (h : step ctx s a = some s1) (ha : a ≠ Action.cancel) (hw : WgInv s)
    (hi : NcInv ctx E s) : NcInv ctx E s1 := by
  obtain ⟨hcr, hc⟩ := step_cases ctx s s1 a h
  obtain ⟨hcan, _, hname, hperm⟩ := hi
  obtain ⟨hwg, hcz⟩ := hw
  rcases hc with ⟨u, hu, hcause, rfl⟩ | ⟨hz, hcl, rfl⟩ | ⟨hac, _, rfl⟩ | ⟨l1, u, l2, pc, hu, hc⟩
  · exfalso
    have hrun : 0 < s.running := by
      have hnd : u.pc ≠ Pc.done := by
        rcases hcause with ⟨hpc, _, _⟩ | ⟨p, hpc, _⟩ | ⟨hpc, _⟩ <;> simp [hpc]
      exact List.countP_pos_iff.2 ⟨u, hu, by simpa using hnd⟩
    rcases hcause with ⟨_, _, hp⟩ | ⟨p, _, hcl⟩ | ⟨_, hz⟩
    · exact hname u hu (cloneRepo_panicked ctx u.repo u.cloneOk hp)
    · have := hcz hcl
      omega
    · omega
  · exact ⟨hcan, hcr, hname, hperm⟩
  · exact absurd hac ha
  · have hname1 : ∀ pc1, ∀ v ∈ l1 ++ { u with pc := pc1 } :: l2, v.repo.Name ≠ none := by
      intro pc1 v hv
      simp only [List.mem_append, List.mem_cons] at hv
      rcases hv with hv | rfl | hv
      · exact hname v (by simp [hu, hv])
      · exact hname u (by simp [hu])
      · exact hname v (by simp [hu, hv])
    rw [hu, pending_append] at hperm
    simp only [pending] at hperm
    rcases hc with ⟨hpc, hc2, rfl, rfl⟩ | ⟨call, hpc, _, rfl, hcl, rfl⟩ |
      ⟨call, p, hpc, _, rfl, hcl, rfl⟩ | ⟨p, hpc, hc2, rfl, rfl⟩ | ⟨p, hpc, _, rfl, rfl⟩ |
      ⟨p, hpc, _, rfl, rfl⟩ | ⟨hpc, hpos, rfl, rfl⟩
    · rw [hcan] at hc2; cases hc2
    · refine ⟨hcan, hcr, hname1 _, ?_⟩
      have hok := cloneRepo_failed ctx u.repo u.cloneOk call hcl
      simp only [outstanding, hpc, hok] at hperm
      simpa [pending_append, pending, outstanding] using hperm
    · refine ⟨hcan, hcr, hname1 _, ?_⟩
      obtain ⟨hok, hp⟩ := cloneRepo_cloned ctx u.repo u.cloneOk call p hcl
      simp only [outstanding, hpc, hok, hp] at hperm
      simpa [pending_append, pending, outstanding] using hperm
    · rw [hcan] at hc2; cases hc2
    · refine ⟨hcan, hcr, hname1 _, ?_⟩
      simp only [outstanding, hpc] at hperm
      simpa [pending_append, pending, outstanding] using hperm
    · refine ⟨hcan, hcr, hname1 _, ?_⟩
      simp only [outstanding, hpc] at hperm
      simp only [pending_append, pending, outstanding, List.nil_append, List.append_assoc]
      refine List.Perm.trans (List.Perm.append_left _ ?_) hperm
      simpa using (@List.perm_middle _ p (pending (outstanding ctx) l1)
        (pending (outstanding ctx) l2)).symm
    · refine ⟨hcan, hcr, hname1 _, ?_⟩
      simp only [outstanding, hpc] at hperm
      simpa [pending_append, pending, outstanding] using hperm

theorem ncInv_exec (ctx : Ctx) (E : List ExternalProject) (sched : List Action)
    (s s1 : CloneState) (h : exec ctx s sched = some s1) (hs : noCancel sched)
    (hw : WgInv s) (hi : NcInv ctx E s) : NcInv ctx E s1 := by
  induction sched generalizing s with
  | nil =>
    simp [exec] at h
    subst h
    exact hi
  | cons a rest ih =>
    simp only [exec] at h
    simp only [noCancel, List.mem_cons, not_or] at hs
    cases hst : step ctx s a with
    | none => simp [hst] at h
    | some s2 =>
      simp only [hst] at h
      exact ih s2 h hs.2 (wgInv_step ctx s s2 a hst hw)
        (ncInv_step ctx E s s2 a hst (fun e => hs.1 e.symm) hw hi)

/-! ## Runs that start cancelled -/

theorem cancelledInv_step (ctx : Ctx) (s s1 : CloneState) (a : Action)
    (h : step ctx s a = some s1) (hw : WgInv s) (hi : CancelledInv s) : CancelledInv s1 := by
  obtain ⟨hcr, hc⟩ := step_cases ctx s s1 a h
  obtain ⟨hcan, _, hdel, hatt, hpcs⟩ := hi
  obtain ⟨hwg, hcz⟩ := hw
  rcases hc with ⟨u, hu, hcause, rfl⟩ | ⟨hz, hcl, rfl⟩ | ⟨_, hcf, rfl⟩ | ⟨l1, u, l2, pc, hu, hc⟩
  · exfalso
    have hrun : 0 < s.running := by
      have hnd : u.pc ≠ Pc.done := by
        rcases hcause with ⟨hpc, _, _⟩ | ⟨p, hpc, _⟩ | ⟨hpc, _⟩ <;> simp [hpc]
      exact List.countP_pos_iff.2 ⟨u, hu, by simpa using hnd⟩
    rcases hcause with ⟨_, hcf, _⟩ | ⟨p, hpc, _⟩ | ⟨_, hz⟩
    · rw [hcan] at hcf; cases hcf
    · rcases hpcs u hu with h1 | h1 | h1 <;> rw [hpc] at h1 <;> cases h1
    · omega
  · exact ⟨hcan, hcr, hdel, hatt, hpcs⟩
  · rw [hcan] at hcf; cases hcf
  · have hu_pc : u.pc = Pc.start ∨ u.pc = Pc.exiting ∨ u.pc = Pc.done :=
      hpcs u (by simp [hu])
    have hpcs1 : ∀ pc1, (pc1 = Pc.start ∨ pc1 = Pc.exiting ∨ pc1 = Pc.done) →
        ∀ v ∈ l1 ++ { u with pc := pc1 } :: l2,
          v.pc = Pc.start ∨ v.pc = Pc.exiting ∨ v.pc = Pc.done := by
      intro pc1 h1 v hv
      simp only [List.mem_append, List.mem_cons] at hv
      rcases hv with hv | rfl | hv
      · exact hpcs v (by simp [hu, hv])
      · exact h1
      · exact hpcs v (by simp [hu, hv])
    rcases hc with ⟨hpc, _, rfl, rfl⟩ | ⟨call, hpc, hcf, rfl, hcl, rfl⟩ |
      ⟨call, p, hpc, hcf, rfl, hcl, rfl⟩ | ⟨p, hpc, _, rfl, rfl⟩ | ⟨p, hpc, hcf, rfl, rfl⟩ |
      ⟨p, hpc, _, rfl, rfl⟩ | ⟨hpc, hpos, rfl, rfl⟩
    · exact ⟨hcan, hcr, hdel, hatt, hpcs1 _ (Or.inr (Or.inl rfl))⟩
    · rw [hcan] at hcf; cases hcf
    · rw [hcan] at hcf; cases hcf
    · exact ⟨hcan, hcr, hdel, hatt, hpcs1 _ (Or.inr (Or.inl rfl))⟩
    · rw [hcan] at hcf; cases hcf
    · rcases hu_pc with h1 | h1 | h1 <;> rw [hpc] at h1 <;> cases h1
    · exact ⟨hcan, hcr, hdel, hatt, hpcs1 _ (Or.inr (Or.inr rfl))⟩

theorem cancelledInv_exec (ctx : Ctx) (sched : List Action) (s s1 : CloneState)
    (h : exec ctx s sched = some s1) (hw : WgInv s) (hi : CancelledInv s) :
    CancelledInv s1 := by
  induction sched generalizing s with
  | nil =>
    simp [exec] at h
    subst h
    exact hi
  | cons a rest ih =>
    simp only [exec] at h
    cases hst : step ctx s a with
    | none => simp [hst] at h
    | some s2 =>
      simp only [hst] at h
      exact ih s2 h (wgInv_step ctx s s2 a hst hw) (cancelledInv_step ctx s s2 a hst hw hi)

/-! ## A panic leaves a goroutine unfinished -/

theorem crashed_step (ctx : Ctx) (s s1 : CloneState) (a : Action)
    (h : step ctx s a = some s1) : s1.crashed = true → ¬ s1.allDone := by
  obtain ⟨hcr, hc⟩ := step_cases ctx s s1 a h
  rcases hc with ⟨u, hu, hcause, rfl⟩ | ⟨hz, hcl, rfl⟩ | ⟨_, hcf, rfl⟩ | ⟨l1, u, l2, pc, hu, hc⟩
  · intro _ hd
    have hdone : u.pc = Pc.done := hd u hu
    rcases hcause with ⟨hpc, _, _⟩ | ⟨p, hpc, _⟩ | ⟨hpc, _⟩ <;> rw [hpc] at hdone <;> cases hdone
  · intro h1; simp [hcr] at h1
  · intro h1; simp [hcr] at h1
  · rcases hc with ⟨hpc, _, rfl, rfl⟩ | ⟨call, hpc, hcf, rfl, hcl, rfl⟩ |
      ⟨call, p, hpc, hcf, rfl, hcl, rfl⟩ | ⟨p, hpc, _, rfl, rfl⟩ | ⟨p, hpc, hcf, rfl, rfl⟩ |
      ⟨p, hpc, _, rfl, rfl⟩ | ⟨hpc, hpos, rfl, rfl⟩ <;>
    · intro h1; simp [hcr] at h1

theorem crashed_exec (ctx : Ctx) (sched : List Action) (s s1 : CloneState)
    (h : exec ctx s sched = some s1) (hi : s.crashed = true → ¬ s.allDone) :
    s1.crashed = true → ¬ s1.allDone := by
  induction sched generalizing s with
  | nil =>
    simp [exec] at h
    subst h
    exact hi
  | cons a rest ih =>
    simp only [exec] at h
    cases hst : step ctx s a with
    | none => simp [hst] at h
    | some s2 =>
      simp only [hst] at h
      exact ih s2 h (crashed_step ctx s s2 a hst)

/-! ## The projects a run without cancellation hands over -/

theorem pending_launch (ctx : Ctx) (git : Nat → Bool) (k : Nat) (rs : List Repository) :
    pending (outstanding ctx) (launch git k rs) =
      ((List.range rs.length).filter fun i => git (k + i)).filterMap fun i =>
        rs[i]?.bind fun r => (cloneRepo ctx r true).project? := by
  induction rs generalizing k with
  | nil => simp [launch, pending]
  | cons r rs ih =>
    simp only [launch, pending, outstanding, List.length_cons, List.range_succ_eq_map,
      List.filter_cons, Nat.add_zero, ih (k + 1)]
    have hfm : ∀ rest : List ExternalProject,
        rest = List.filterMap (fun i => rs[i]?.bind fun r => (cloneRepo ctx r true).project?)
          (List.filter (fun i => git (k + 1 + i)) (List.range rs.length)) →
        rest = List.filterMap (fun i => (r :: rs)[i]?.bind fun r => (cloneRepo ctx r true).project?)
          (List.filter (fun i => git (k + i)) (List.map Nat.succ (List.range rs.length))) := by
      intro rest hrest
      rw [hrest]
      simp [List.filter_map, List.filterMap_map, Function.comp_def, Nat.add_assoc,
        Nat.add_comm 1]
    rcases Bool.eq_false_or_eq_true (git k) with hg | hg
    · rw [if_pos hg, if_pos hg, List.filterMap_cons]
      simp only [List.getElem?_cons_zero, Option.some_bind]
      cases hp : (cloneRepo ctx r true).project? with
      | none => simpa using hfm _ rfl
      | some p => simpa using hfm _ rfl
    · have hg2 : ¬ git k = true := by simp [hg]
      rw [if_neg hg2, if_neg hg2]
      simpa using hfm _ rfl

theorem string_append_left_cancel (a x y : String) (h : a ++ x = a ++ y) : x = y := by
  have h1 := congrArg String.data h
  simp only [String.data_append] at h1
  exact String.ext (List.append_cancel_left h1)

/-! ## The Execution Stage -/

theorem utf8ByteSize_go_pos (c : Char) (cs : List Char) : 0 < String.utf8ByteSize.go (c :: cs) := by
  simp only [String.utf8ByteSize.go]
  have := Char.utf8Size_pos c
  omega

theorem utf8ByteSize_pos_iff (s : String) : 0 < s.utf8ByteSize ↔ s ≠ "" := by
  rcases s with ⟨cs⟩
  cases cs with
  | nil => simp [String.utf8ByteSize, String.utf8ByteSize.go]
  | cons c cs =>
    constructor
    · intro _ h
      have := congrArg String.data h
      simp at this
    · intro _
      exact utf8ByteSize_go_pos c cs

theorem buildCmd_cons (env : Env) (c0 : String) (rest : List String) :
    buildCmd env (c0 :: rest) =
      some { execCommand env c0 rest with
             Stdout := some Stream.stdout, Stderr := some Stream.stderr } := by
  cases rest with
  | nil => simp [buildCmd, execCommand]
  | cons c1 rest => simp [buildCmd, execCommand]

theorem buildCmd_isSome (env : Env) (t : List String) (h : t ≠ []) :
    ∃ cmd, buildCmd env t = some cmd := by
  cases t with
  | nil => exact absurd rfl h
  | cons c0 rest => exact ⟨_, buildCmd_cons env c0 rest⟩

theorem run_not_panicked (env : Env) (ctx : Ctx) (p : ExternalProject) (o : WorkOutcome)
    (w : World) (h : ctx.ExternalCmd ≠ []) : (run env ctx p o w).2 ≠ RunReturn.panicked := by
  obtain ⟨cmd, hcmd⟩ := buildCmd_isSome env ctx.ExternalCmd h
  cases o <;> simp [run, hcmd]

/-- What `run` does to the environment when the command can be built. -/
theorem run_world (env : Env) (ctx : Ctx) (p : ExternalProject) (o : WorkOutcome) (w : World)
    (cmd : Cmd) (h : buildCmd env ctx.ExternalCmd = some cmd) :
    (run env ctx p o w).1 =
      if o.chdirOk then
        { cwd := w.cwd.chdir p.Directory,
          invocations := w.invocations ++
            [{ project := p, dir := w.cwd.chdir p.Directory, cmd := cmd }] }
      else w := by
  cases o <;> simp [run, h, WorkOutcome.chdirOk]

theorem scanl_head_tail {α β : Type} (f : β → α → β) (b : β) (l : List α) :
    List.scanl f b l = b :: (List.scanl f b l).tail := by
  cases l <;> simp [List.scanl]

theorem scanl_cons_tail {α β : Type} (f : β → α → β) (b : β) (a : α) (l : List α) :
    (List.scanl f b (a :: l)).tail = List.scanl f (f b a) l := by
  simp [List.scanl_cons]

theorem loop_spec (env : Env) (ctx : Ctx) (cmd : Cmd)
    (h : buildCmd env ctx.ExternalCmd = some cmd)
    (input : List (ExternalProject × WorkOutcome)) (s : Stage) :
    (Run.loop env ctx input s).out =
        s.out ++ input.map (fun x => ChanEvent.send x.1) ++ [ChanEvent.close] ∧
      (Run.loop env ctx input s).crashed = s.crashed ∧
      ∃ news : List Invocation,
        (Run.loop env ctx input s).world.invocations = s.world.invocations ++ news ∧
        news.map (fun i => (i.project, i.cmd)) =
          (input.filter fun x => x.2.chdirOk).map (fun x => (x.1, cmd)) ∧
        news.map (fun i => i.dir) =
          (List.scanl WorkDir.chdir s.world.cwd
            ((input.filter fun x => x.2.chdirOk).map fun x => x.1.Directory)).tail := by
  induction input generalizing s with
  | nil => exact ⟨by simp [Run.loop], by simp [Run.loop], [], by simp [Run.loop], by simp, by simp⟩
  | cons x rest ih =>
    obtain ⟨p, o⟩ := x
    have hne : ctx.ExternalCmd ≠ [] := by
      intro hnil
      simp [hnil, buildCmd] at h
    have hnp := run_not_panicked env ctx p o s.world hne
    have hw := run_world env ctx p o s.world cmd h
    simp only [Run.loop]
    cases hr : run env ctx p o s.world with
    | mk w r =>
      rw [hr] at hnp hw
      simp only at hw hnp
      have key : ∀ s1 : Stage, s1.world = w → s1.out = s.out ++ [ChanEvent.send p] →
          s1.crashed = s.crashed →
          (Run.loop env ctx rest s1).out =
              s.out ++ ((p, o) :: rest).map (fun x => ChanEvent.send x.1) ++ [ChanEvent.close] ∧
            (Run.loop env ctx rest s1).crashed = s.crashed ∧
            ∃ news : List Invocation,
              (Run.loop env ctx rest s1).world.invocations = s.world.invocations ++ news ∧
              news.map (fun i => (i.project, i.cmd)) =
                (((p, o) :: rest).filter fun x => x.2.chdirOk).map (fun x => (x.1, cmd)) ∧
              news.map (fun i => i.dir) =
                (List.scanl WorkDir.chdir s.world.cwd
                  ((((p, o) :: rest).filter fun x => x.2.chdirOk).map
                    fun x => x.1.Directory)).tail := by
        intro s1 hs1w hs1o hs1c
        obtain ⟨h1, h2, news, h3, h4, h5⟩ := ih s1
        refine ⟨by simp [h1, hs1o], by rw [h2, hs1c], ?_⟩
        rw [hs1w] at h3 h5
        cases hco : o.chdirOk with
        | false =>
          rw [hco] at hw
          simp only [Bool.false_eq_true, if_false] at hw
          rw [hw] at h3 h5
          exact ⟨news, h3, by simpa [List.filter_cons, hco] using h4,
            by simpa [List.filter_cons, hco] using h5⟩
        | true =>
          rw [hco] at hw
          simp only [if_true] at hw
          rw [hw] at h3 h5
          simp only at h3 h5
          refine ⟨{ project := p, dir := s.world.cwd.chdir p.Directory, cmd := cmd } :: news,
            by simpa using h3, by simpa [List.filter_cons, hco] using h4, ?_⟩
          simp only [List.filter_cons, hco, if_true, List.map_cons]
          rw [scanl_cons_tail, scanl_head_tail, h5]
      cases r with
      | panicked => exact absurd rfl hnp
      | ok => exact key _ rfl rfl rfl
      | error msg => exact key _ rfl rfl rfl

theorem abs_dirs (news : List Invocation) (ds : List String) (d0 : WorkDir)
    (hproj : news.map (fun i => i.project.Directory) = ds)
    (hdirs : news.map (fun i => i.dir) = (List.scanl WorkDir.chdir d0 ds).tail) :
    ∀ i ∈ news, isAbs i.project.Directory = true →
      i.dir = { base := i.project.Directory, steps := [] } := by
  induction news generalizing ds d0 with
  | nil => simp
  | cons n news ih =>
    cases ds with
    | nil => simp at hproj
    | cons x ds =>
      simp only [List.map_cons, List.cons.injEq] at hproj
      rw [scanl_cons_tail, scanl_head_tail] at hdirs
      simp only [List.map_cons, List.cons.injEq] at hdirs
      intro i hi habs
      rcases List.mem_cons.1 hi with rfl | hi
      · rw [hdirs.1, ← hproj.1]
        simp [WorkDir.chdir, habs]
      · exact ih ds (d0.chdir x) hproj.2 hdirs.2 i hi habs

theorem loop_context (env : Env) (ctx : Ctx) (c : CancelContext)
    (input : List (ExternalProject × WorkOutcome)) (s : Stage) :
    Run.loop env { ctx with Context := c } input s = Run.loop env ctx input s := by
  induction input generalizing s with
  | nil => rfl
  | cons x rest ih =>
    obtain ⟨p, o⟩ := x
    have hrun : run env { ctx with Context := c } p o s.world = run env ctx p o s.world := rfl
    simp only [Run.loop, hrun]
    cases hr : run env ctx p o s.world with
    | mk w r =>
      cases r with
      | panicked => rfl
      | ok => exact ih _
      | error msg => exact ih _

/-- C1: for every sequence of projects delivered on the input channel and then
closed, and for every outcome of the work on each project, the output channel
of `Run` carries exactly the received projects, unmodified, once each and in
the order of arrival, and is then closed; the goroutine does not panic.  The
external command is non-empty, as the run context requires. -/
theorem C1_run_forwards_every_project (env : Env) (ctx : Ctx)
    (input : List (ExternalProject × WorkOutcome)) (w : World) (h : ctx.ExternalCmd ≠ []) :
    (Run env ctx input w).out = input.map (fun x => ChanEvent.send x.1) ++ [ChanEvent.close] ∧
      (Run env ctx input w).crashed = false := by
  obtain ⟨cmd, hcmd⟩ := buildCmd_isSome env ctx.ExternalCmd h
  obtain ⟨h1, h2, _⟩ := loop_spec env ctx cmd hcmd input
    { world := w, out := [], logged := [], crashed := false }
  exact ⟨by simpa [Run] using h1, by simpa [Run] using h2⟩

theorem C1_run_forwards_every_project_witness :
    exCtx.ExternalCmd ≠ [] ∧
      (Run exEnv exCtx exWork exWorld).out =
        [ChanEvent.send exAbsA, ChanEvent.send exAbsB, ChanEvent.send exAbsA,
         ChanEvent.send exAbsB, ChanEvent.close] ∧
      (Run exEnv exCtx exWork exWorld).crashed = false :=
  ⟨by decide, C1_run_forwards_every_project exEnv exCtx exWork exWorld (by decide)⟩

/-- C2, as the code has it: a project whose change of directory fails is
forwarded without any invocation of the command. -/
theorem C2_counterexample :
    (Run exEnv exCtx [(exAbsA, WorkOutcome.chdirFailure "no such file or directory")]
        exWorld).out = [ChanEvent.send exAbsA, ChanEvent.close] ∧
      (Run exEnv exCtx [(exAbsA, WorkOutcome.chdirFailure "no such file or directory")]
        exWorld).world.invocations = [] := by
  decide

/-- C2, amended: every received project is forwarded, and the command is
invoked exactly once for every received project whose change of directory
succeeded and not at all for the others: the new invocations are, in the order
of arrival, one per such project, each with the command built from
`ExternalCmd` and each in the working directory that the successive changes
of directory of the process lead to (the project's directory itself when it
is an absolute path).  A project received again is invoked again, and nothing
depends on the cancellation signal.  When the change of directory fails,
`run` returns its wrapped error before the command is built, whatever the
context, and leaves the environment as it was. -/
theorem C2_command_invoked_once_after_chdir (env : Env) (ctx : Ctx)
    (input : List (ExternalProject × WorkOutcome)) (w : World) (h : ctx.ExternalCmd ≠ []) :
    ∃ (cmd : Cmd) (news : List Invocation), buildCmd env ctx.ExternalCmd = some cmd ∧
      (Run env ctx input w).world.invocations = w.invocations ++ news ∧
      news.map (fun i => (i.project, i.cmd)) =
        (input.filter fun x => x.2.chdirOk).map (fun x => (x.1, cmd)) ∧
      news.map (fun i => i.dir) =
        (List.scanl WorkDir.chdir w.cwd
          ((input.filter fun x => x.2.chdirOk).map fun x => x.1.Directory)).tail ∧
      (∀ i ∈ news, isAbs i.project.Directory = true →
        i.dir = { base := i.project.Directory, steps := [] }) ∧
      (Run env ctx input w).out =
        input.map (fun x => ChanEvent.send x.1) ++ [ChanEvent.close] ∧
      (∀ c : CancelContext, Run env { ctx with Context := c } input w = Run env ctx input w) ∧
      ∀ (env2 : Env) (ctx2 : Ctx) (p : ExternalProject) (err : String) (w2 : World),
        run env2 ctx2 p (WorkOutcome.chdirFailure err) w2 =
          (w2, RunReturn.error
            (errorsWrap err "error changing into project working directory")) := by
  obtain ⟨cmd, hcmd⟩ := buildCmd_isSome env ctx.ExternalCmd h
  obtain ⟨h1, _, news, h3, h4, h5⟩ := loop_spec env ctx cmd hcmd input
    { world := w, out := [], logged := [], crashed := false }
  refine ⟨cmd, news, hcmd, by simpa [Run] using h3, h4, h5, ?_, by simpa [Run] using h1,
    fun c => loop_context env ctx c input _, fun _ _ _ _ _ => rfl⟩
  have hproj : news.map (fun i => i.project.Directory) =
      (input.filter fun x => x.2.chdirOk).map fun x => x.1.Directory := by
    have := congrArg (List.map fun pc : ExternalProject × Cmd => pc.1.Directory) h4
    simpa [List.map_map, Function.comp_def] using this
  exact abs_dirs news _ _ hproj h5

theorem C2_command_invoked_once_after_chdir_witness :
    exCtx.ExternalCmd ≠ [] ∧
      (Run exEnv exCtx [(exAbsA, WorkOutcome.success), (exAbsA, WorkOutcome.success)]
          exWorld).world.invocations =
        [{ project := exAbsA, dir := { base := "/srv/neighbor/a", steps := [] },
           cmd := { Path := "/bin/echo", Args := ["echo", "ok"],
                    Stdout := some Stream.stdout, Stderr := some Stream.stderr } },
         { project := exAbsA, dir := { base := "/srv/neighbor/a", steps := [] },
           cmd := { Path := "/bin/echo", Args := ["echo", "ok"],
                    Stdout := some Stream.stdout, Stderr := some Stream.stderr } }] ∧
      ∃ (cmd : Cmd) (news : List Invocation), buildCmd exEnv exCtx.ExternalCmd = some cmd ∧
        (Run exEnv exCtx [(exAbsA, WorkOutcome.success), (exAbsA, WorkOutcome.success)]
            exWorld).world.invocations = exWorld.invocations ++ news ∧
        news.map (fun i => (i.project, i.cmd)) = [(exAbsA, cmd), (exAbsA, cmd)] :=
  have hthm := C2_command_invoked_once_after_chdir exEnv exCtx
    [(exAbsA, WorkOutcome.success), (exAbsA, WorkOutcome.success)] exWorld (by decide)
  ⟨by decide, by decide,
    hthm.choose, hthm.choose_spec.choose, hthm.choose_spec.choose_spec.1,
    hthm.choose_spec.choose_spec.2.1, hthm.choose_spec.choose_spec.2.2.1⟩

/-- C8: for every non-empty token sequence `t`, the command `run` builds and
invokes is `exec.Command` of the first token with the remaining tokens as
arguments, in the single-token branch (no arguments) as in the general one,
with the standard streams of the process: whenever the change of directory
succeeds `run` records exactly one invocation, of the command whose `Path` is
the lookup of `t[0]` and whose `Args` are `t[0]` followed by `t[1:]`; and the
index `ExternalCmd[0]` is in range, so `run` does not panic. -/
theorem C8_command_construction (env : Env) (t : List String) (h : t ≠ []) :
    buildCmd env t = some { execCommand env (t.head h) t.tail with
                            Stdout := some Stream.stdout, Stderr := some Stream.stderr } ∧
      (t.length = 1 → t.tail = []) ∧
      ∀ (ctx : Ctx) (p : ExternalProject) (o : WorkOutcome) (w : World),
        ctx.ExternalCmd = t →
          (run env ctx p o w).2 ≠ RunReturn.panicked ∧
          (o.chdirOk = true →
            (run env ctx p o w).1.invocations =
              w.invocations ++
                [{ project := p, dir := w.cwd.chdir p.Directory,
                   cmd := { Path := env.commandPath (t.head h), Args := t.head h :: t.tail,
                            Stdout := some Stream.stdout,
                            Stderr := some Stream.stderr } }]) := by
  cases t with
  | nil => exact absurd rfl h
  | cons c0 rest =>
    refine ⟨buildCmd_cons env c0 rest, ?_, ?_⟩
    · intro hl
      simpa using hl
    · intro ctx p o w hctx
      refine ⟨run_not_panicked env ctx p o w (by simp [hctx]), ?_⟩
      intro hco
      have hb := buildCmd_cons env c0 rest
      rw [← hctx] at hb
      rw [run_world env ctx p o w _ hb, hco]
      simp [execCommand]

theorem C8_command_construction_witness :
    ["ls"] ≠ [] ∧ exCtxLs.ExternalCmd = ["ls"] ∧ WorkOutcome.success.chdirOk = true ∧
      (run exEnv exCtxLs exAbsA WorkOutcome.success exWorld).1.invocations =
        [{ project := exAbsA, dir := { base := "/srv/neighbor/a", steps := [] },
           cmd := { Path := "/usr/bin/ls", Args := ["ls"],
                    Stdout := some Stream.stdout, Stderr := some Stream.stderr } }] ∧
      (run exEnv exCtxLs exAbsA WorkOutcome.success exWorld).2 ≠ RunReturn.panicked :=
  have hthm := (C8_command_construction exEnv ["ls"] (by decide)).2.2 exCtxLs exAbsA
    WorkOutcome.success exWorld rfl
  ⟨by decide, rfl, rfl, hthm.2 rfl, hthm.1⟩

/-! ## The clone of one descriptor -/

/-- C6: for a descriptor named `n` and the base directory `b`, `cloneRepo`
clones into `b/n`, and the project it has ready to publish after a successful
clone has name `n` and directory `b/n`; any other context with the same base
directory and any other descriptor with the same name give the same
directory. -/
theorem C6_clone_directory (ctx : Ctx) (repo : Repository) (n : String) (ok : Bool)
    (h : repo.Name = some n) :
    (cloneRepo ctx repo ok).call?.map (fun c => c.path) = some (ctx.ExtResultDir ++ "/" ++ n) ∧
      (cloneRepo ctx repo true).project? =
        some { Name := n, Directory := ctx.ExtResultDir ++ "/" ++ n } ∧
      (cloneRepo ctx repo false).project? = none ∧
      ∀ (ctx2 : Ctx) (repo2 : Repository) (ok2 : Bool),
        ctx2.ExtResultDir = ctx.ExtResultDir → repo2.Name = some n →
          (cloneRepo ctx2 repo2 ok2).call?.map (fun c => c.path) =
            (cloneRepo ctx repo ok).call?.map (fun c => c.path) := by
  have hpath : ∀ (c : Ctx) (r : Repository) (b : Bool), r.Name = some n →
      (cloneRepo c r b).call?.map (fun c => c.path) = some (c.ExtResultDir ++ "/" ++ n) := by
    intro c r b hr
    cases b <;> simp [cloneRepo, hr, CloneResult.call?]
  refine ⟨hpath ctx repo ok h, cloneRepo_project ctx repo n h, ?_, ?_⟩
  · simp [cloneRepo, h, CloneResult.project?]
  · intro ctx2 repo2 ok2 hdir hn
    rw [hpath ctx2 repo2 ok2 hn, hpath ctx repo ok h, hdir]

theorem C6_clone_directory_witness :
    exRepoA.Name = some "a" ∧
      (cloneRepo exCtx exRepoA true).call?.map (fun c => c.path) = some "base/a" ∧
      (cloneRepo exCtx exRepoA true).project? = some { Name := "a", Directory := "base/a" } ∧
      (cloneRepo exCtx exRepoA false).project? = none ∧
      ∀ (ctx2 : Ctx) (repo2 : Repository) (ok2 : Bool),
        ctx2.ExtResultDir = exCtx.ExtResultDir → repo2.Name = some "a" →
          (cloneRepo ctx2 repo2 ok2).call?.map (fun c => c.path) =
            (cloneRepo exCtx exRepoA true).call?.map (fun c => c.path) :=
  ⟨rfl, C6_clone_directory exCtx exRepoA "a" true rfl⟩

/-- C7: `getCloneURL` returns the clone URL of the descriptor when it is
non-empty, and the HTML URL followed by `.git` when the clone URL is empty or
missing; the URL of every call to `git.PlainClone` is the result of
`getCloneURL`. -/
theorem C7_clone_url (repo : Repository) :
    (∀ u, repo.CloneURL = some u → u ≠ "" → getCloneURL repo = u) ∧
      (repo.CloneURL = none ∨ repo.CloneURL = some "" →
        getCloneURL repo = repo.GetHTMLURL ++ ".git") ∧
      ∀ (ctx : Ctx) (ok : Bool) (call : CloneCall),
        (cloneRepo ctx repo ok).call? = some call → call.o.URL = getCloneURL repo := by
  refine ⟨?_, ?_, ?_⟩
  · intro u hu hne
    simp [getCloneURL, Repository.GetCloneURL, hu, hne]
  · intro hu
    rcases hu with hu | hu <;> simp [getCloneURL, Repository.GetCloneURL, hu]
  · intro ctx ok call hcall
    unfold cloneRepo at hcall
    cases hn : repo.Name with
    | none => simp [hn, CloneResult.call?] at hcall
    | some n =>
      simp only [hn] at hcall
      cases ok <;>
      · simp only [CloneResult.call?, Bool.false_eq_true, if_false, if_true,
          Option.some.injEq] at hcall
        subst hcall
        split <;> rfl

theorem C7_clone_url_witness :
    getCloneURL exRepoA = "u1" ∧ getCloneURL exRepoB = "h2.git" ∧
      (cloneRepo exCtx exRepoB true).call?.map (fun c => c.o.URL) = some "h2.git" :=
  ⟨(C7_clone_url exRepoA).1 "u1" rfl (by decide), (C7_clone_url exRepoB).2.1 (Or.inl rfl),
    by decide⟩

/-- C9: the options of a call to `git.PlainClone` carry basic-auth credentials
exactly when the access token is non-empty; the credentials then have a
non-empty user name and the token as password, and with an empty token no
credentials are set. -/
theorem C9_clone_auth (ctx : Ctx) (repo : Repository) (ok : Bool) (call : CloneCall)
    (h : (cloneRepo ctx repo ok).call? = some call) :
    (call.o.Auth.isSome = true ↔ ctx.GitHub.AccessToken ≠ "") ∧
      (∀ a, call.o.Auth = some a → a.Username ≠ "" ∧ a.Password = ctx.GitHub.AccessToken) ∧
      (ctx.GitHub.AccessToken = "" → call.o.Auth = none) := by
  unfold cloneRepo at h
  cases hn : repo.Name with
  | none => simp [hn, CloneResult.call?] at h
  | some n =>
    simp only [hn] at h
    have hcall : call.o.Auth =
        if ctx.GitHub.AccessToken.utf8ByteSize > 0 then
          some { Username := "abc123", Password := ctx.GitHub.AccessToken }
        else none := by
      cases ok <;>
      · simp only [CloneResult.call?, Bool.false_eq_true, if_false, if_true,
          Option.some.injEq] at h
        subst h
        split <;> rfl
    by_cases ht : ctx.GitHub.AccessToken = ""
    · have hz : ¬ ctx.GitHub.AccessToken.utf8ByteSize > 0 := by
        intro hpos
        exact (utf8ByteSize_pos_iff _).1 hpos ht
      rw [if_neg hz] at hcall
      simp [hcall, ht]
    · have hpos : ctx.GitHub.AccessToken.utf8ByteSize > 0 := (utf8ByteSize_pos_iff _).2 ht
      rw [if_pos hpos] at hcall
      refine ⟨by simp [hcall, ht], ?_, fun h0 => absurd h0 ht⟩
      intro a ha
      rw [hcall] at ha
      cases ha
      have hu : ("abc123" : String) ≠ "" := by decide
      exact ⟨hu, rfl⟩

theorem C9_clone_auth_witness :
    (cloneRepo exCtx exRepoA true).call? =
        some { path := "base/a", isBare := false,
               o := { URL := "u1", Auth := some { Username := "abc123", Password := "tok" },
                      Progress := Stream.stderr } } ∧
      (some ({ Username := "abc123", Password := "tok" } : BasicAuth)).isSome = true ∧
      exCtx.GitHub.AccessToken ≠ "" :=
  have hcall : (cloneRepo exCtx exRepoA true).call? =
      some { path := "base/a", isBare := false,
             o := { URL := "u1", Auth := some { Username := "abc123", Password := "tok" },
                    Progress := Stream.stderr } } := by decide
  ⟨hcall, rfl, (C9_clone_auth exCtx exRepoA true _ hcall).1.1 rfl⟩

/-! ## The Clone Stage -/

theorem initial_wgInv (ctx : Ctx) (git : Nat → Bool) (rs : List Repository) :
    WgInv (initial ctx git rs) :=
  ⟨by simp [initial, CloneState.running, launch_running], by simp [initial]⟩

theorem initial_measure (ctx : Ctx) (git : Nat → Bool) (rs : List Repository) :
    (initial ctx git rs).measure = 4 * rs.length + 2 + (if ctx.Context.done then 0 else 1) := by
  simp only [initial, CloneState.measure, launch_rank]
  simp
  omega

theorem cloneFromResult_initial (ctx : Ctx) (git : Nat → Bool) (d : SearchResult)
    (s0 : CloneState) (h : CloneFromResult ctx git d = some s0) :
    ∃ rs, s0 = initial ctx git rs := by
  simp only [CloneFromResult, Option.map_eq_some'] at h
  obtain ⟨rs, _, rfl⟩ := h
  exact ⟨rs, rfl⟩

theorem measure_ge (s : CloneState) :
    (if s.cancelled then 0 else 1) + (if s.crashed then 0 else 1) ≤ s.measure := by
  simp only [CloneState.measure]
  omega

/-- A run without cancellation over named descriptors: no panic, the wait
group invariant, and the received projects together with the outstanding ones
are those outstanding at the start. -/
theorem noCancel_run (ctx : Ctx) (git : Nat → Bool) (rs : List Repository)
    (hc : ctx.Context.done = false) (hname : ∀ r ∈ rs, r.Name ≠ none)
    (sched : List Action) (s : CloneState) (hs : noCancel sched)
    (h : exec ctx (initial ctx git rs) sched = some s) :
    WgInv s ∧ NcInv ctx (pending (outstanding ctx) (launch git 0 rs)) s ∧
      sched.length ≤ 4 * rs.length + 1 := by
  have hw0 := initial_wgInv ctx git rs
  have hn0 : NcInv ctx (pending (outstanding ctx) (launch git 0 rs)) (initial ctx git rs) := by
    refine ⟨hc, rfl, ?_, by simp [initial]⟩
    intro u hu
    exact hname _ (launch_start git 0 rs u hu).2
  have hw := wgInv_exec ctx sched _ s h hw0
  have hn := ncInv_exec ctx _ sched _ s h hs hw0 hn0
  refine ⟨hw, hn, ?_⟩
  have hlen := exec_length ctx sched _ s h
  have hm0 := initial_measure ctx git rs
  have hge := measure_ge s
  rw [hn.1, hn.2.1] at hge
  rw [hc] at hm0
  simp at hm0 hge
  omega

theorem pending_launch_ok (ctx : Ctx) (git : Nat → Bool) (k : Nat) (rs : List Repository)
    (hok : ∀ i, i < rs.length → git (k + i) = true) (hname : ∀ r ∈ rs, r.Name ≠ none) :
    pending (outstanding ctx) (launch git k rs) =
      rs.map fun r =>
        { Name := r.Name.getD "", Directory := ctx.ExtResultDir ++ "/" ++ r.Name.getD "" } := by
  induction rs generalizing k with
  | nil => simp [launch, pending]
  | cons r rs ih =>
    have hk : git k = true := by simpa using hok 0 (by simp)
    have hr : r.Name ≠ none := hname r (List.mem_cons_self _ _)
    obtain ⟨n, hn⟩ := Option.ne_none_iff_exists'.1 hr
    have hrest := ih (k + 1)
      (fun i hi => by
        have := hok (i + 1) (by simpa using hi)
        rwa [show k + (i + 1) = k + 1 + i by omega] at this)
      (fun r2 h2 => hname r2 (List.mem_cons_of_mem _ h2))
    simp only [launch, pending, outstanding, hk, if_true, cloneRepo_project ctx r n hn, hrest,
      List.map_cons, hn, Option.getD_some, Option.toList_some, List.singleton_append]

theorem directories_nodup (base : String) (rs : List Repository)
    (hname : ∀ r ∈ rs, r.Name ≠ none) (hnd : (rs.map fun r => r.Name).Nodup) :
    (rs.map fun r => base ++ "/" ++ r.Name.getD "").Nodup := by
  have hmap : (rs.map fun r => base ++ "/" ++ r.Name.getD "") =
      (rs.map fun r => r.Name).map fun o => base ++ "/" ++ o.getD "" := by
    simp [List.map_map, Function.comp_def]
  rw [hmap]
  refine List.Nodup.map_on ?_ hnd
  intro x hx y hy hxy
  simp only [List.mem_map] at hx hy
  obtain ⟨r1, hr1, rfl⟩ := hx
  obtain ⟨r2, hr2, rfl⟩ := hy
  obtain ⟨n1, hn1⟩ := Option.ne_none_iff_exists'.1 (hname r1 hr1)
  obtain ⟨n2, hn2⟩ := Option.ne_none_iff_exists'.1 (hname r2 hr2)
  rw [hn1, hn2] at hxy ⊢
  simp only [Option.getD_some] at hxy
  rw [string_append_left_cancel (base ++ "/") n1 n2 hxy]

/-- C3, as the code has it: two descriptors with the same name, no
cancellation, both clones succeeding: two projects are received before the
channel is closed, and their directories are equal. -/
theorem C3_counterexample :
    ∃ s0 s, CloneFromResult exCtx (fun _ => true)
        (SearchResult.repositories [exRepoA, exRepoA2]) = some s0 ∧
      exec exCtx s0 exSchedule = some s ∧ s.closed = true ∧ s.delivered.length = 2 ∧
      ¬ (s.delivered.map fun p => p.Directory).Nodup := by
  refine ⟨_, _, rfl, rfl, ?_, ?_, ?_⟩ <;> decide

/-- C3, amended: for every list of `N` named descriptors, as a repository
search result or as a code search result, with no cancellation and every
clone succeeding, in every run: no goroutine panics; once the channel is
closed exactly `N` projects have been received, and their directories are
pairwise distinct when the names of the descriptors are; while the channel is
open some goroutine can move; and the run has at most `4 * N + 1` actions, so
the channel does get closed. -/
theorem C3_all_clones_succeed (ctx : Ctx) (git : Nat → Bool) (repos : List Repository)
    (d : SearchResult)
    (hd : d = SearchResult.repositories repos ∨
      d = SearchResult.code (repos.map fun r => { Repository := some r }))
    (hc : ctx.Context.done = false) (hname : ∀ r ∈ repos, r.Name ≠ none)
    (hok : ∀ i, i < repos.length → git i = true) :
    ∃ s0, CloneFromResult ctx git d = some s0 ∧
      ∀ (sched : List Action) (s : CloneState), noCancel sched → exec ctx s0 sched = some s →
        s.crashed = false ∧
        (s.closed = true →
          s.delivered.length = repos.length ∧
          ((repos.map fun r => r.Name).Nodup → (s.delivered.map fun p => p.Directory).Nodup)) ∧
        (s.closed = false → ∃ a s1, a ≠ Action.cancel ∧ step ctx s a = some s1) ∧
        sched.length ≤ 4 * repos.length + 1 := by
  refine ⟨_, cloneFromResult_eq ctx git repos d hd, ?_⟩
  intro sched s hs h
  obtain ⟨hw, hn, hlen⟩ := noCancel_run ctx git repos hc hname sched s hs h
  obtain ⟨_, hcr, _, hperm⟩ := hn
  refine ⟨hcr, ?_, fun hcl => progress ctx s hw hcr hcl, hlen⟩
  intro hcl
  have hdone : s.allDone := (running_eq_zero s).1 (by rw [← hw.1]; exact hw.2 hcl)
  rw [pending_allDone ctx s.units hdone, List.append_nil,
    pending_launch_ok ctx git 0 repos (fun i hi => by simpa using hok i hi) hname] at hperm
  refine ⟨by simpa using hperm.length_eq, ?_⟩
  intro hnd
  have hdirs := (hperm.map fun p => p.Directory)
  rw [List.map_map] at hdirs
  exact (hdirs.nodup_iff).2 (directories_nodup ctx.ExtResultDir repos hname hnd)

theorem C3_all_clones_succeed_witness :
    exCtx.Context.done = false ∧ (∀ r ∈ [exRepoA, exRepoB], r.Name ≠ none) ∧
      ([exRepoA, exRepoB].map fun r => r.Name).Nodup ∧
      ∃ s0 s, CloneFromResult exCtx (fun _ => true)
          (SearchResult.repositories [exRepoA, exRepoB]) = some s0 ∧
        exec exCtx s0 exSchedule = some s ∧ s.closed = true ∧ s.delivered.length = 2 ∧
        (s.delivered.map fun p => p.Directory).Nodup := by
  have hname : ∀ r ∈ [exRepoA, exRepoB], r.Name ≠ none := by decide
  have hnd : ([exRepoA, exRepoB].map fun r => r.Name).Nodup := by decide
  obtain ⟨s0, h0, hall⟩ := C3_all_clones_succeed exCtx (fun _ => true) [exRepoA, exRepoB]
    (SearchResult.repositories [exRepoA, exRepoB]) (Or.inl rfl) rfl hname (fun _ _ => rfl)
  have hs0 : s0 = initial exCtx (fun _ => true) [exRepoA, exRepoB] :=
    (Option.some.inj h0).symm
  subst hs0
  have hex : exec exCtx (initial exCtx (fun _ => true) [exRepoA, exRepoB]) exSchedule ≠ none := by
    decide
  obtain ⟨s, hs⟩ := Option.ne_none_iff_exists'.1 hex
  have hclosed : s.closed = true := by
    have : (exec exCtx (initial exCtx (fun _ => true) [exRepoA, exRepoB]) exSchedule).map
        (fun t => t.closed) = some true := by decide
    rw [hs] at this
    simpa using this
  obtain ⟨_, hfin, _, _⟩ := hall exSchedule s (by decide) hs
  exact ⟨rfl, hname, hnd, _, s, h0, hs, hclosed, (hfin hclosed).1, (hfin hclosed).2 hnd⟩

/-- C4: for every list of named descriptors, as a repository search result or
as a code search result, with no cancellation and for every assignment `git`
of success or failure to the clones, in every run: no goroutine panics; the
projects received are always among those of the descriptors whose clone
succeeds; once the channel is closed they are exactly those, one for each
such descriptor and none for a descriptor whose clone fails; while the
channel is open some goroutine can move; and the run has at most
`4 * N + 1` actions. -/
theorem C4_one_project_per_successful_clone (ctx : Ctx) (git : Nat → Bool)
    (repos : List Repository) (d : SearchResult)
    (hd : d = SearchResult.repositories repos ∨
      d = SearchResult.code (repos.map fun r => { Repository := some r }))
    (hc : ctx.Context.done = false) (hname : ∀ r ∈ repos, r.Name ≠ none) :
    ∃ s0, CloneFromResult ctx git d = some s0 ∧
      ∀ (sched : List Action) (s : CloneState), noCancel sched → exec ctx s0 sched = some s →
        s.crashed = false ∧
        List.Subperm s.delivered
          (((List.range repos.length).filter fun i => git i).filterMap fun i =>
            repos[i]?.bind fun r => (cloneRepo ctx r true).project?) ∧
        (s.closed = true →
          List.Perm s.delivered
            (((List.range repos.length).filter fun i => git i).filterMap fun i =>
              repos[i]?.bind fun r => (cloneRepo ctx r true).project?)) ∧
        (s.closed = false → ∃ a s1, a ≠ Action.cancel ∧ step ctx s a = some s1) ∧
        sched.length ≤ 4 * repos.length + 1 := by
  refine ⟨_, cloneFromResult_eq ctx git repos d hd, ?_⟩
  intro sched s hs h
  obtain ⟨hw, hn, hlen⟩ := noCancel_run ctx git repos hc hname sched s hs h
  obtain ⟨_, hcr, _, hperm⟩ := hn
  rw [pending_launch ctx git 0 repos] at hperm
  simp only [Nat.zero_add] at hperm
  refine ⟨hcr, ?_, ?_, fun hcl => progress ctx s hw hcr hcl, hlen⟩
  · exact (List.sublist_append_left _ _).subperm.trans hperm.subperm
  · intro hcl
    have hdone : s.allDone := (running_eq_zero s).1 (by rw [← hw.1]; exact hw.2 hcl)
    rwa [pending_allDone ctx s.units hdone, List.append_nil] at hperm

theorem C4_one_project_per_successful_clone_witness :
    exCtx.Context.done = false ∧ (∀ r ∈ [exRepoA, exRepoB], r.Name ≠ none) ∧
      ∃ s0 s, CloneFromResult exCtx (fun i => decide (i = 0))
          (SearchResult.repositories [exRepoA, exRepoB]) = some s0 ∧
        exec exCtx s0 exScheduleOneFails = some s ∧ s.closed = true ∧
        List.Perm s.delivered [exProjA] := by
  have hname : ∀ r ∈ [exRepoA, exRepoB], r.Name ≠ none := by decide
  obtain ⟨s0, h0, hall⟩ := C4_one_project_per_successful_clone exCtx (fun i => decide (i = 0))
    [exRepoA, exRepoB] (SearchResult.repositories [exRepoA, exRepoB]) (Or.inl rfl) rfl hname
  have hs0 : s0 = initial exCtx (fun i => decide (i = 0)) [exRepoA, exRepoB] :=
    (Option.some.inj h0).symm
  subst hs0
  have hex : exec exCtx (initial exCtx (fun i => decide (i = 0)) [exRepoA, exRepoB])
      exScheduleOneFails ≠ none := by decide
  obtain ⟨s, hs⟩ := Option.ne_none_iff_exists'.1 hex
  have hclosed : s.closed = true := by
    have : (exec exCtx (initial exCtx (fun i => decide (i = 0)) [exRepoA, exRepoB])
        exScheduleOneFails).map (fun t => t.closed) = some true := by decide
    rw [hs] at this
    simpa using this
  obtain ⟨_, _, hfin, _, _⟩ := hall exScheduleOneFails s (by decide) hs
  have hexp : (((List.range [exRepoA, exRepoB].length).filter fun i => decide (i = 0)).filterMap
      fun i => [exRepoA, exRepoB][i]?.bind fun r => (cloneRepo exCtx r true).project?) =
      [exProjA] := by decide
  have hp := hfin hclosed
  rw [hexp] at hp
  exact ⟨rfl, hname, _, s, h0, hs, hclosed, hp⟩

/-- C5: for every list of descriptors, as a repository search result or as a
code search result, when the cancellation signal is set before the goroutines
start, in every run: no clone is attempted, no project is received, no
goroutine panics; while the channel is open some goroutine can move; and the
run has at most `4 * N + 1` actions, so the channel does get closed. -/
theorem C5_cancelled_before_start (ctx : Ctx) (git : Nat → Bool) (repos : List Repository)
    (d : SearchResult)
    (hd : d = SearchResult.repositories repos ∨
      d = SearchResult.code (repos.map fun r => { Repository := some r }))
    (hc : ctx.Context.done = true) :
    ∃ s0, CloneFromResult ctx git d = some s0 ∧
      ∀ (sched : List Action) (s : CloneState), exec ctx s0 sched = some s →
        s.attempts = [] ∧ s.delivered = [] ∧ s.crashed = false ∧
        (s.closed = false → ∃ a s1, a ≠ Action.cancel ∧ step ctx s a = some s1) ∧
        sched.length ≤ 4 * repos.length + 1 := by
  refine ⟨_, cloneFromResult_eq ctx git repos d hd, ?_⟩
  intro sched s h
  have hw0 := initial_wgInv ctx git repos
  have hi0 : CancelledInv (initial ctx git repos) := by
    refine ⟨hc, rfl, rfl, rfl, ?_⟩
    intro u hu
    exact Or.inl (launch_start git 0 repos u hu).1
  have hw := wgInv_exec ctx sched _ s h hw0
  obtain ⟨hcan, hcr, hdel, hatt, _⟩ := cancelledInv_exec ctx sched _ s h hw0 hi0
  refine ⟨hatt, hdel, hcr, fun hcl => progress ctx s hw hcr hcl, ?_⟩
  have hlen := exec_length ctx sched _ s h
  have hm0 := initial_measure ctx git repos
  have hge := measure_ge s
  rw [hcan, hcr] at hge
  rw [hc] at hm0
  simp at hm0 hge
  omega

theorem C5_cancelled_before_start_witness :
    exCtxCancelled.Context.done = true ∧
      ∃ s0 s, CloneFromResult exCtxCancelled (fun _ => true)
          (SearchResult.repositories [exRepoA, exRepoB]) = some s0 ∧
        exec exCtxCancelled s0 exScheduleCancelled = some s ∧ s.closed = true ∧
        s.attempts = [] ∧ s.delivered = [] := by
  obtain ⟨s0, h0, hall⟩ := C5_cancelled_before_start exCtxCancelled (fun _ => true)
    [exRepoA, exRepoB] (SearchResult.repositories [exRepoA, exRepoB]) (Or.inl rfl) rfl
  have hs0 : s0 = initial exCtxCancelled (fun _ => true) [exRepoA, exRepoB] :=
    (Option.some.inj h0).symm
  subst hs0
  have hex : exec exCtxCancelled (initial exCtxCancelled (fun _ => true) [exRepoA, exRepoB])
      exScheduleCancelled ≠ none := by decide
  obtain ⟨s, hs⟩ := Option.ne_none_iff_exists'.1 hex
  have hclosed : s.closed = true := by
    have : (exec exCtxCancelled (initial exCtxCancelled (fun _ => true) [exRepoA, exRepoB])
        exScheduleCancelled).map (fun t => t.closed) = some true := by decide
    rw [hs] at this
    simpa using this
  obtain ⟨h1, h2, _, _, _⟩ := hall exScheduleCancelled s hs
  exact ⟨rfl, _, s, h0, hs, hclosed, h1, h2⟩

/-- C10: in every run of the Clone Stage, cancelled or not, whatever the
clones do: when the channel is closed every clone goroutine has finished; when
every clone goroutine has finished the channel is closed or the closing
goroutine is enabled and its action closes it; while the channel is open and
no goroutine has panicked some goroutine can move; and the run has at most
`4 * N + 3` actions. -/
theorem C10_closed_iff_all_finished (ctx : Ctx) (git : Nat → Bool) (d : SearchResult)
    (s0 : CloneState) (sched : List Action) (s : CloneState)
    (h0 : CloneFromResult ctx git d = some s0) (h : exec ctx s0 sched = some s) :
    (s.closed = true → s.allDone) ∧
      (s.allDone →
        s.closed = true ∨ step ctx s Action.closer = some { s with closed := true }) ∧
      (s.closed = false → s.crashed = false →
        ∃ a s1, a ≠ Action.cancel ∧ step ctx s a = some s1) ∧
      sched.length ≤ 4 * s0.units.length + 3 := by
  obtain ⟨rs, rfl⟩ := cloneFromResult_initial ctx git d s0 h0
  have hw := wgInv_exec ctx sched _ s h (initial_wgInv ctx git rs)
  have hcrash := crashed_exec ctx sched _ s h (by simp [initial])
  refine ⟨?_, ?_, fun hcl hcr => progress ctx s hw hcr hcl, ?_⟩
  · intro hcl
    exact (running_eq_zero s).1 (by rw [← hw.1]; exact hw.2 hcl)
  · intro hdone
    cases hcl : s.closed with
    | true => exact Or.inl rfl
    | false =>
      right
      have hcr : s.crashed = false := by
        cases hcr : s.crashed with
        | false => rfl
        | true => exact absurd hdone (hcrash hcr)
      have hz : s.wg = 0 := by rw [hw.1]; exact (running_eq_zero s).2 hdone
      simp [step, hcr, hz, hcl]
  · have hlen := exec_length ctx sched _ s h
    have hm0 := initial_measure ctx git rs
    have hl : (initial ctx git rs).units.length = rs.length := launch_length git 0 rs
    rw [hl]
    split at hm0 <;> omega

theorem C10_closed_iff_all_finished_witness :
    ∃ s0 s, CloneFromResult exCtx (fun i => decide (i = 0))
        (SearchResult.repositories [exRepoA, exRepoB]) = some s0 ∧
      exec exCtx s0 [Action.unit 1, Action.unit 0, Action.cancel, Action.unit 0,
        Action.unit 1, Action.unit 0] = some s ∧
      s.allDone ∧ s.closed = false ∧
      step exCtx s Action.closer = some { s with closed := true } := by
  have hex : exec exCtx (initial exCtx (fun i => decide (i = 0)) [exRepoA, exRepoB])
      [Action.unit 1, Action.unit 0, Action.cancel, Action.unit 0, Action.unit 1,
        Action.unit 0] ≠ none := by decide
  obtain ⟨s, hs⟩ := Option.ne_none_iff_exists'.1 hex
  have hopen : s.closed = false := by
    have : (exec exCtx (initial exCtx (fun i => decide (i = 0)) [exRepoA, exRepoB])
        [Action.unit 1, Action.unit 0, Action.cancel, Action.unit 0, Action.unit 1,
          Action.unit 0]).map (fun t => t.closed) = some false := by decide
    rw [hs] at this
    simpa using this
  have hdone : s.allDone := by
    have : (exec exCtx (initial exCtx (fun i => decide (i = 0)) [exRepoA, exRepoB])
        [Action.unit 1, Action.unit 0, Action.cancel, Action.unit 0, Action.unit 1,
          Action.unit 0]).map (fun t => t.units.map fun u => u.pc) =
        some [Pc.done, Pc.done] := by decide
    rw [hs] at this
    simp only [Option.map_some', Option.some.injEq] at this
    intro u hu
    have hmem : u.pc ∈ s.units.map (fun u => u.pc) := List.mem_map_of_mem _ hu
    rw [this] at hmem
    simpa using hmem
  have hthm := C10_closed_iff_all_finished exCtx (fun i => decide (i = 0))
    (SearchResult.repositories [exRepoA, exRepoB]) _ _ s rfl hs
  rcases hthm.2.1 hdone with hcl | hstep
  · rw [hopen] at hcl; cases hcl
  · exact ⟨_, s, rfl, hs, hdone, hopen, hstep⟩

end Neighbor
